import Mathlib

/-!
Shallow embedding of the `bytecode` Rust crate (`src/lib.rs`, `src/core.rs`,
`src/util.rs`): a cursor over a fixed byte buffer.

The Rust struct is `ByteCode { inner: &[u8], pos: usize }` where `inner` is a
slice into the original buffer.  `AddAssign`/`SubAssign` move the slice head by
raw pointer arithmetic, so `inner` is always the window of the original buffer
that starts at offset `pos`.  We therefore embed the state as the original
buffer `buf` together with `pos`; the slice `inner` is the derived view
`buf.drop pos`, which is exactly the window `(base_ptr + pos, buf.len - pos)`
the pointer arithmetic maintains.  Bytes (`u8`) are embedded as `Nat`
(construction from a `&[u8]` only ever yields values `< 256`; no operation of
the crate computes new bytes).

Every Rust operation that can panic (the panic calls in `add_assign`, `sub_assign`,
`peek`, and slice indexing) is embedded as an `Option`-returning function,
`none` being the panic.  A panicking operation aborts before any field is
assigned in the source, so in the pure embedding a failure simply yields no
successor state: the caller keeps the unchanged cursor.
-/

namespace BytecodeRs

/-- Rust `ByteCode<'a> { inner: &'a [u8], pos: usize }`, represented by the
original buffer the slice points into plus the consumed count `pos`;
`inner` is recovered as `buf.drop pos`. -/
structure ByteCode where
  buf : List Nat
  pos : Nat
deriving DecidableEq, Repr

namespace ByteCode

/-- Rust `ByteCode::new(slice)` — fresh cursor, `pos = 0`. -/
def new (slice : List Nat) : ByteCode :=
  { buf := slice, pos := 0 }

/-- The slice field `inner`: the window of the buffer starting at `pos`. -/
def inner (bc : ByteCode) : List Nat :=
  bc.buf.drop bc.pos

/-- Rust `ByteCode::as_slice` — the current remaining slice. -/
def as_slice (bc : ByteCode) : List Nat :=
  bc.inner

/-- Rust `ByteCode::len` — `self.inner.len() + self.pos`. -/
def len (bc : ByteCode) : Nat :=
  bc.inner.length + bc.pos

/-- The remaining unread length, i.e. `inner.len()` (spec vocabulary). -/
def remaining (bc : ByteCode) : Nat :=
  bc.inner.length

/-- Rust `ByteCode::is_end` — `self.pos == self.len()`. -/
def is_end (bc : ByteCode) : Bool :=
  bc.pos == bc.len

/-- Rust `AddAssign<usize>` (`bytes += rhs`): panics when `rhs > inner.len()`,
otherwise moves the slice head forward `rhs` and adds `rhs` to `pos`. -/
def add_assign (bc : ByteCode) (rhs : Nat) : Option ByteCode :=
  if rhs > bc.inner.length then
    none
  else
    some { buf := bc.buf, pos := bc.pos + rhs }

/-- Rust `SubAssign<usize>` (`bytes -= rhs`): panics when `rhs > self.pos`,
otherwise moves the slice head back `rhs` and subtracts `rhs` from `pos`. -/
def sub_assign (bc : ByteCode) (rhs : Nat) : Option ByteCode :=
  if rhs > bc.pos then
    none
  else
    some { buf := bc.buf, pos := bc.pos - rhs }

/-- Rust `ByteCode::reset` — `*self -= self.pos`. -/
def reset (bc : ByteCode) : Option ByteCode :=
  bc.sub_assign bc.pos

/-- Rust `Index<usize>`: `self.inner[i]`, panicking when `i` is out of bounds. -/
def index (bc : ByteCode) (i : Nat) : Option Nat :=
  bc.inner.get? i

/-- Rust `Index<Range<usize>>`: `self.inner[a..b]`, panicking unless
`a <= b` and `b <= inner.len()`. -/
def index_range (bc : ByteCode) (a b : Nat) : Option (List Nat) :=
  if a ≤ b ∧ b ≤ bc.inner.length then
    some ((bc.inner.drop a).take (b - a))
  else
    none

/-- Rust `Index<RangeFrom<usize>>`: `self.inner[a..]`. -/
def index_range_from (bc : ByteCode) (a : Nat) : Option (List Nat) :=
  bc.index_range a bc.inner.length

/-- Rust `Index<RangeTo<usize>>`: `self.inner[..b]`. -/
def index_range_to (bc : ByteCode) (b : Nat) : Option (List Nat) :=
  bc.index_range 0 b

/-- Rust `Index<RangeInclusive<usize>>`: `self.inner[a..=b]`, i.e. `a..(b+1)`. -/
def index_range_incl (bc : ByteCode) (a b : Nat) : Option (List Nat) :=
  bc.index_range a (b + 1)

/-- Rust `ByteCode::peek` — panics when `num > inner.len()`, otherwise returns
`&self[0..num]`. -/
def peek (bc : ByteCode) (num : Nat) : Option (List Nat) :=
  if num > bc.inner.length then
    none
  else
    bc.index_range 0 num

/-- Rust `ByteCode::starts_with` — `self.peek(v.len()) == v`; a panic inside
`peek` propagates. -/
def starts_with (bc : ByteCode) (v : List Nat) : Option Bool :=
  (bc.peek v.length).map (fun p => p == v)

/-- Rust `ByteCode::next` — `*self += 1`. -/
def next (bc : ByteCode) : Option ByteCode :=
  bc.add_assign 1

/-- Rust `ByteCode::prev` — `*self -= 1`. -/
def prev (bc : ByteCode) : Option ByteCode :=
  bc.sub_assign 1

/-- Rust `ByteCode::skip` — `*self += num`. -/
def skip (bc : ByteCode) (num : Nat) : Option ByteCode :=
  bc.add_assign num

/-- Rust `ByteCode::take` — `let result = self.peek(num).to_owned(); self.skip(num);
result`. -/
def take (bc : ByteCode) (num : Nat) : Option (List Nat × ByteCode) :=
  match bc.peek num with
  | none => none
  | some result => (bc.skip num).map (fun bc' => (result, bc'))

/-- Rust `u16::from_be_bytes([b0, b1])` on bytes `< 256`. -/
def u16_from_be_bytes (b0 b1 : Nat) : Nat :=
  b0 * 256 + b1

/-- Rust `u32::from_be_bytes([b0, b1, b2, b3])` on bytes `< 256`. -/
def u32_from_be_bytes (b0 b1 b2 b3 : Nat) : Nat :=
  ((b0 * 256 + b1) * 256 + b2) * 256 + b3

/-- Rust `ByteCode::take_into_u16` — `self.take(2).try_into().unwrap()` then
`u16::from_be_bytes`; both the `take` panic and a failed `try_into` are
`none`. -/
def take_into_u16 (bc : ByteCode) : Option (Nat × ByteCode) :=
  match bc.take 2 with
  | some ([b0, b1], bc') => some (u16_from_be_bytes b0 b1, bc')
  | some _ => none
  | none => none

/-- Rust `ByteCode::take_into_u32` — `self.take(4).try_into().unwrap()` then
`u32::from_be_bytes`. -/
def take_into_u32 (bc : ByteCode) : Option (Nat × ByteCode) :=
  match bc.take 4 with
  | some ([b0, b1, b2, b3], bc') => some (u32_from_be_bytes b0 b1 b2 b3, bc')
  | some _ => none
  | none => none

/-- Iterated `ByteCode::next` (k individual step-forward calls). -/
def nextN (bc : ByteCode) : Nat → Option ByteCode
  | 0 => some bc
  | k + 1 =>
    match bc.next with
    | none => none
    | some bc' => bc'.nextN k

/-- Well-formedness of a cursor state: the consumed count does not exceed the
underlying buffer.  Holds at construction and is preserved by every
operation. -/
def wf (bc : ByteCode) : Prop :=
  bc.pos ≤ bc.buf.length

instance (bc : ByteCode) : Decidable bc.wf := by
  unfold wf
  infer_instance

/-- The spec's cursor invariants relative to the fixed total length: `len`
equals the construction buffer's length and never changes, the position stays
within `[0, total_length]`, and the remaining unread length is always
`total_length - position`. -/
def inv (total : Nat) (bc : ByteCode) : Prop :=
  bc.len = total ∧ bc.pos ≤ bc.len ∧ bc.remaining = bc.len - bc.pos

end ByteCode

/-- A movement of the cursor: `+=` (advance/skip/next) or `-=`
(retreat/prev). -/
inductive Move where
  | advance (n : Nat)
  | retreat (n : Nat)
deriving DecidableEq, Repr

/-- Run a sequence of movements, aborting at the first panic. -/
def ByteCode.run : ByteCode → List Move → Option ByteCode
  | bc, [] => some bc
  | bc, Move.advance n :: ms =>
    match bc.add_assign n with
    | none => none
    | some bc' => bc'.run ms
  | bc, Move.retreat n :: ms =>
    match bc.sub_assign n with
    | none => none
    | some bc' => bc'.run ms

end BytecodeRs

namespace BytecodeRs

namespace ByteCode

/-! Basic lemmas about the embedding, shared by the claim theorems below. -/

theorem inner_mk (buf : List Nat) (pos : Nat) :
    inner { buf := buf, pos := pos } = buf.drop pos := rfl

theorem remaining_def (bc : ByteCode) : bc.remaining = bc.inner.length := rfl

theorem len_def (bc : ByteCode) : bc.len = bc.inner.length + bc.pos := rfl

theorem add_assign_eq_none_iff (bc : ByteCode) (n : Nat) :
    bc.add_assign n = none ↔ bc.remaining < n := by
  unfold add_assign remaining
  split <;> simp_all

theorem add_assign_eq_some_iff (bc bc' : ByteCode) (n : Nat) :
    bc.add_assign n = some bc' ↔
      n ≤ bc.remaining ∧ bc' = { buf := bc.buf, pos := bc.pos + n } := by
  unfold add_assign remaining
  split <;> constructor <;> intro h <;> simp_all <;> omega

theorem sub_assign_eq_none_iff (bc : ByteCode) (n : Nat) :
    bc.sub_assign n = none ↔ bc.pos < n := by
  unfold sub_assign
  split <;> simp_all

theorem sub_assign_eq_some_iff (bc bc' : ByteCode) (n : Nat) :
    bc.sub_assign n = some bc' ↔
      n ≤ bc.pos ∧ bc' = { buf := bc.buf, pos := bc.pos - n } := by
  unfold sub_assign
  split <;> constructor <;> intro h <;> simp_all <;> omega

theorem peek_eq_some (bc : ByteCode) (n : Nat) (h : n ≤ bc.remaining) :
    bc.peek n = some (bc.inner.take n) := by
  unfold peek index_range
  rw [remaining_def] at h
  rw [if_neg (by omega), if_pos (by omega)]
  simp

theorem peek_eq_none_iff (bc : ByteCode) (n : Nat) :
    bc.peek n = none ↔ bc.remaining < n := by
  unfold peek index_range remaining
  split
  · simp_all
  · rw [if_pos (by omega)]
    simp_all

theorem skip_eq_some (bc : ByteCode) (n : Nat) (h : n ≤ bc.remaining) :
    bc.skip n = some { buf := bc.buf, pos := bc.pos + n } := by
  unfold skip add_assign
  rw [remaining_def] at h
  rw [if_neg (by omega)]

theorem take_eq_some (bc : ByteCode) (n : Nat) (h : n ≤ bc.remaining) :
    bc.take n = some (bc.inner.take n, { buf := bc.buf, pos := bc.pos + n }) := by
  unfold take
  rw [peek_eq_some bc n h, skip_eq_some bc n h]
  rfl

theorem take_eq_none_iff (bc : ByteCode) (n : Nat) :
    bc.take n = none ↔ bc.remaining < n := by
  unfold take
  constructor
  · intro h
    by_contra hc
    rw [peek_eq_some bc n (by omega), skip_eq_some bc n (by omega)] at h
    simp [Option.map] at h
  · intro h
    rw [(peek_eq_none_iff bc n).mpr h]

theorem length_inner (bc : ByteCode) : bc.inner.length = bc.buf.length - bc.pos := by
  simp [inner]

theorem nextN_eq_some (k : Nat) (bc : ByteCode) (h : k ≤ bc.remaining) :
    bc.nextN k = some { buf := bc.buf, pos := bc.pos + k } := by
  induction k generalizing bc with
  | zero =>
    simp [nextN]
  | succ m ih =>
    have h1 : bc.next = some { buf := bc.buf, pos := bc.pos + 1 } := by
      rw [next, add_assign_eq_some_iff]
      exact ⟨by omega, rfl⟩
    have h2 : ({ buf := bc.buf, pos := bc.pos + 1 } : ByteCode).remaining = bc.remaining - 1 := by
      simp only [remaining, inner, List.length_drop]
      omega
    rw [nextN, h1]
    show ({ buf := bc.buf, pos := bc.pos + 1 } : ByteCode).nextN m =
      some { buf := bc.buf, pos := bc.pos + (m + 1) }
    rw [ih { buf := bc.buf, pos := bc.pos + 1 } (by rw [h2]; omega)]
    have heq : bc.pos + 1 + m = bc.pos + (m + 1) := by omega
    rw [heq]

theorem run_buf_eq (ms : List Move) (bc bc' : ByteCode) (h : bc.run ms = some bc') :
    bc'.buf = bc.buf := by
  induction ms generalizing bc with
  | nil =>
    simp [run] at h
    rw [h]
  | cons m ms ih =>
    cases m with
    | advance n =>
      rw [run] at h
      cases hadd : bc.add_assign n with
      | none => rw [hadd] at h; exact absurd h (by simp)
      | some bc1 =>
        rw [hadd] at h
        have hb : bc1.buf = bc.buf := by
          rw [add_assign_eq_some_iff] at hadd
          rw [hadd.2]
        rw [ih bc1 h, hb]
    | retreat n =>
      rw [run] at h
      cases hsub : bc.sub_assign n with
      | none => rw [hsub] at h; exact absurd h (by simp)
      | some bc1 =>
        rw [hsub] at h
        have hb : bc1.buf = bc.buf := by
          rw [sub_assign_eq_some_iff] at hsub
          rw [hsub.2]
        rw [ih bc1 h, hb]

/-- C1: the advance operation (`+=`, also exposed as `skip`) fails with the
out-of-bounds panic exactly when the count exceeds the remaining unread
length, and the retreat operation (`-=`, with `prev` the n = 1 case) fails
exactly when the count exceeds the current position.  A failing operation
yields no successor state: in the source the bounds check precedes every
field assignment, and in this embedding failure is `none`, so the cursor's
position and view are left unchanged (no partial mutation). -/
theorem C1_advance_retreat_out_of_bounds (bc : ByteCode) (n : Nat) :
    (bc.add_assign n = none ↔ bc.remaining < n) ∧
    (bc.skip n = none ↔ bc.remaining < n) ∧
    (bc.sub_assign n = none ↔ bc.pos < n) ∧
    (bc.prev = none ↔ bc.pos < 1) :=
  ⟨add_assign_eq_none_iff bc n, add_assign_eq_none_iff bc n,
   sub_assign_eq_none_iff bc n, sub_assign_eq_none_iff bc 1⟩

/-- C2: for every cursor state and every n not exceeding the remaining unread
length, `peek n` returns exactly the bytes `take n` returns, `advance n`
(`skip`) moves to exactly the state `take n` leaves, and `take n` returns
that byte list paired with that state. -/
theorem C2_peek_then_advance_eq_take (bc : ByteCode) (n : Nat)
    (h : n ≤ bc.remaining) :
    bc.peek n = some (bc.inner.take n) ∧
    bc.skip n = some { buf := bc.buf, pos := bc.pos + n } ∧
    bc.take n = some (bc.inner.take n, { buf := bc.buf, pos := bc.pos + n }) :=
  ⟨peek_eq_some bc n h, skip_eq_some bc n h, take_eq_some bc n h⟩

theorem C2_witness :
    (ByteCode.new [0, 1, 2, 3]).peek 2 = some [0, 1] ∧
    (ByteCode.new [0, 1, 2, 3]).skip 2 =
      some { buf := [0, 1, 2, 3], pos := 2 } ∧
    (ByteCode.new [0, 1, 2, 3]).take 2 =
      some ([0, 1], { buf := [0, 1, 2, 3], pos := 2 }) :=
  C2_peek_then_advance_eq_take (ByteCode.new [0, 1, 2, 3]) 2 (by decide)

/-- C6: advancing by any n not exceeding the remaining unread length and then
retreating by n restores the cursor exactly: the retreat succeeds (n never
exceeds the position reached) and returns the original state, hence the prior
position and the prior view. -/
theorem C6_advance_then_retreat (bc : ByteCode) (n : Nat)
    (h : n ≤ bc.remaining) :
    ∃ bc', bc.add_assign n = some bc' ∧ bc'.sub_assign n = some bc ∧
      bc'.pos = bc.pos + n ∧ bc'.inner = bc.inner.drop n := by
  refine ⟨{ buf := bc.buf, pos := bc.pos + n }, ?_, ?_, rfl, ?_⟩
  · rw [add_assign_eq_some_iff]
    exact ⟨h, rfl⟩
  · rw [sub_assign_eq_some_iff]
    constructor
    · show n ≤ bc.pos + n
      omega
    · show bc = { buf := bc.buf, pos := bc.pos + n - n }
      cases bc
      simp
  · simp [inner, List.drop_drop]

theorem C6_witness :
    ∃ bc', (ByteCode.new [0, 1, 2, 3]).add_assign 3 = some bc' ∧
      bc'.sub_assign 3 = some (ByteCode.new [0, 1, 2, 3]) ∧
      bc'.pos = (ByteCode.new [0, 1, 2, 3]).pos + 3 ∧
      bc'.inner = (ByteCode.new [0, 1, 2, 3]).inner.drop 3 :=
  C6_advance_then_retreat (ByteCode.new [0, 1, 2, 3]) 3 (by decide)

/-- C10: `peek n` fails with the out-of-bounds panic exactly when n exceeds
the remaining unread length (and, being a read-only function of the cursor,
never mutates position or view); `peek 0` and `take 0` always succeed with an
empty result, on any cursor state, exhausted ones included. -/
theorem C10_peek_bounds_and_zero (bc : ByteCode) (n : Nat) :
    (bc.peek n = none ↔ bc.remaining < n) ∧
    bc.peek 0 = some [] ∧
    bc.take 0 = some ([], bc) := by
  refine ⟨peek_eq_none_iff bc n, ?_, ?_⟩
  · rw [peek_eq_some bc 0 (by omega)]
    simp
  · rw [take_eq_some bc 0 (by omega)]
    cases bc
    simp

theorem len_eq_of_wf (bc : ByteCode) (h : bc.wf) : bc.len = bc.buf.length := by
  unfold wf at h
  unfold len
  rw [length_inner]
  omega

theorem inv_of_wf (bc : ByteCode) (h : bc.wf) : bc.inv bc.buf.length := by
  have hl := len_eq_of_wf bc h
  unfold wf at h
  refine ⟨hl, ?_, ?_⟩
  · rw [hl]
    exact h
  · rw [remaining_def, length_inner, hl]

/-- C3: every operation that produces a successor cursor state (`+=`, `-=`,
`next`, `prev`, `skip`, `reset`, `take`, `take_into_u16`, `take_into_u32`)
preserves the invariants: `len` (which for a well-formed state equals the
construction buffer's length) never changes, `0 <= pos <= len`, and the
remaining unread length equals `len - pos`.  The read-only operations
(`peek`, `starts_with` and the indexed accesses) are functions of an
unchanged cursor in this embedding — they produce no successor state, so
they preserve every invariant trivially. -/
theorem C3_ops_preserve_invariants (bc : ByteCode) (h : bc.wf) :
    bc.inv bc.len ∧
    (∀ n bc', bc.add_assign n = some bc' → bc'.wf ∧ bc'.inv bc.len) ∧
    (∀ n bc', bc.sub_assign n = some bc' → bc'.wf ∧ bc'.inv bc.len) ∧
    (∀ bc', bc.next = some bc' → bc'.wf ∧ bc'.inv bc.len) ∧
    (∀ bc', bc.prev = some bc' → bc'.wf ∧ bc'.inv bc.len) ∧
    (∀ n bc', bc.skip n = some bc' → bc'.wf ∧ bc'.inv bc.len) ∧
    (∀ bc', bc.reset = some bc' → bc'.wf ∧ bc'.inv bc.len) ∧
    (∀ n out bc', bc.take n = some (out, bc') → bc'.wf ∧ bc'.inv bc.len) ∧
    (∀ v bc', bc.take_into_u16 = some (v, bc') → bc'.wf ∧ bc'.inv bc.len) ∧
    (∀ v bc', bc.take_into_u32 = some (v, bc') → bc'.wf ∧ bc'.inv bc.len) := by
  have hwf : bc.pos ≤ bc.buf.length := h
  have hrem : bc.remaining = bc.buf.length - bc.pos := by
    rw [remaining_def, length_inner]
  have hlen : bc.len = bc.buf.length := len_eq_of_wf bc h
  have key : ∀ p : Nat, p ≤ bc.buf.length →
      ({ buf := bc.buf, pos := p } : ByteCode).wf ∧
      ({ buf := bc.buf, pos := p } : ByteCode).inv bc.len := by
    intro p hp
    refine ⟨hp, ?_⟩
    have hi := inv_of_wf { buf := bc.buf, pos := p } hp
    rwa [hlen]
  have hadd : ∀ n bc', bc.add_assign n = some bc' → bc'.wf ∧ bc'.inv bc.len := by
    intro n bc' hs
    rw [add_assign_eq_some_iff] at hs
    rcases hs with ⟨hn, rfl⟩
    exact key (bc.pos + n) (by omega)
  have hsub : ∀ n bc', bc.sub_assign n = some bc' → bc'.wf ∧ bc'.inv bc.len := by
    intro n bc' hs
    rw [sub_assign_eq_some_iff] at hs
    rcases hs with ⟨hn, rfl⟩
    exact key (bc.pos - n) (by omega)
  have htake : ∀ n out bc', bc.take n = some (out, bc') → bc'.wf ∧ bc'.inv bc.len := by
    intro n out bc' hs
    by_cases hn : n ≤ bc.remaining
    · rw [take_eq_some bc n hn] at hs
      rw [Option.some.injEq, Prod.mk.injEq] at hs
      rcases hs with ⟨-, hb⟩
      rw [← hb]
      exact key (bc.pos + n) (by omega)
    · rw [(take_eq_none_iff bc n).mpr (by omega)] at hs
      exact absurd hs (by simp)
  have hu16 : ∀ v bc', bc.take_into_u16 = some (v, bc') → bc'.wf ∧ bc'.inv bc.len := by
    intro v bc' hs
    unfold take_into_u16 at hs
    cases htk : bc.take 2 with
    | none =>
      rw [htk] at hs
      exact absurd hs (by simp)
    | some p =>
      obtain ⟨out, bcx⟩ := p
      rw [htk] at hs
      rcases out with _ | ⟨b0, _ | ⟨b1, _ | ⟨b2, t⟩⟩⟩ <;> simp at hs
      rcases hs with ⟨-, hb⟩
      rw [← hb]
      exact htake 2 [b0, b1] bcx htk
  have hu32 : ∀ v bc', bc.take_into_u32 = some (v, bc') → bc'.wf ∧ bc'.inv bc.len := by
    intro v bc' hs
    unfold take_into_u32 at hs
    cases htk : bc.take 4 with
    | none =>
      rw [htk] at hs
      exact absurd hs (by simp)
    | some p =>
      obtain ⟨out, bcx⟩ := p
      rw [htk] at hs
      rcases out with _ | ⟨b0, _ | ⟨b1, _ | ⟨b2, _ | ⟨b3, _ | ⟨b4, t⟩⟩⟩⟩⟩ <;> simp at hs
      rcases hs with ⟨-, hb⟩
      rw [← hb]
      exact htake 4 [b0, b1, b2, b3] bcx htk
  refine ⟨?_, hadd, hsub, ?_, ?_, hadd, ?_, htake, hu16, hu32⟩
  · have hi := inv_of_wf bc h
    rwa [hlen]
  · intro bc' hs
    exact hadd 1 bc' hs
  · intro bc' hs
    exact hsub 1 bc' hs
  · intro bc' hs
    exact hsub bc.pos bc' hs

theorem C3_witness :
    (ByteCode.new [0, 1, 2]).inv (ByteCode.new [0, 1, 2]).len :=
  (C3_ops_preserve_invariants (ByteCode.new [0, 1, 2]) (by decide)).1

/-- C4: `take_into_u16` returns the next 2 unread bytes interpreted as a
big-endian unsigned 16-bit integer and advances the position by 2, failing
with the out-of-bounds panic when fewer than 2 bytes remain; `take_into_u32`
does the same for 4 bytes as a big-endian 32-bit integer, advancing by 4.
In particular on `[0xFF, 0xFF, ...]` the u16 read yields 65535 and on
`[0xFF, 0xFF, 0xFF, 0xFF, ...]` the u32 read yields 4294967295. -/
theorem C4_take_u16_u32_big_endian (bc : ByteCode) :
    (∀ b0 b1 rest, bc.inner = b0 :: b1 :: rest →
      bc.take_into_u16 =
        some (u16_from_be_bytes b0 b1, { buf := bc.buf, pos := bc.pos + 2 })) ∧
    (bc.remaining < 2 → bc.take_into_u16 = none) ∧
    (∀ b0 b1 b2 b3 rest, bc.inner = b0 :: b1 :: b2 :: b3 :: rest →
      bc.take_into_u32 =
        some (u32_from_be_bytes b0 b1 b2 b3, { buf := bc.buf, pos := bc.pos + 4 })) ∧
    (bc.remaining < 4 → bc.take_into_u32 = none) ∧
    (ByteCode.new [255, 255, 0, 0, 0, 0, 0, 0]).take_into_u16 =
      some (65535, { buf := [255, 255, 0, 0, 0, 0, 0, 0], pos := 2 }) ∧
    (ByteCode.new [255, 255, 255, 255, 0, 0, 0, 0]).take_into_u32 =
      some (4294967295, { buf := [255, 255, 255, 255, 0, 0, 0, 0], pos := 4 }) := by
  refine ⟨?_, ?_, ?_, ?_, by decide, by decide⟩
  · intro b0 b1 rest hin
    have h2 : 2 ≤ bc.remaining := by
      rw [remaining_def, hin]
      simp
    unfold take_into_u16
    rw [take_eq_some bc 2 h2, hin]
    rfl
  · intro hlt
    unfold take_into_u16
    rw [(take_eq_none_iff bc 2).mpr hlt]
  · intro b0 b1 b2 b3 rest hin
    have h4 : 4 ≤ bc.remaining := by
      rw [remaining_def, hin]
      simp
    unfold take_into_u32
    rw [take_eq_some bc 4 h4, hin]
    rfl
  · intro hlt
    unfold take_into_u32
    rw [(take_eq_none_iff bc 4).mpr hlt]

/-- C5: `starts_with pattern` is the comparison of `peek (pattern length)`
with the pattern: it returns `some true` exactly when the next
`pattern.length` unread bytes equal the pattern, it is a pure function of
the cursor (no side effect on position or view), and when the pattern is
longer than the remaining unread bytes the out-of-bounds failure of `peek`
propagates.  The spec's ASCII "foo" example is included. -/
theorem C5_starts_with_iff_peek (bc : ByteCode) (v : List Nat) :
    (v.length ≤ bc.remaining →
      bc.starts_with v = some (bc.inner.take v.length == v)) ∧
    (bc.remaining < v.length → bc.starts_with v = none) ∧
    (bc.starts_with v = some true ↔ bc.peek v.length = some v) ∧
    (ByteCode.new [102, 111, 111, 0, 0, 0, 0, 0]).starts_with [102, 111, 111] =
      some true := by
  refine ⟨?_, ?_, ?_, by decide⟩
  · intro h
    unfold starts_with
    rw [peek_eq_some bc v.length h]
    rfl
  · intro h
    unfold starts_with
    rw [(peek_eq_none_iff bc v.length).mpr h]
    rfl
  · by_cases hn : v.length ≤ bc.remaining
    · unfold starts_with
      rw [peek_eq_some bc v.length hn]
      simp
    · unfold starts_with
      rw [(peek_eq_none_iff bc v.length).mpr (by omega)]
      simp

/-- C7: from construction, after any sequence of successful advances and
retreats, `reset` succeeds and returns exactly the construction state: the
position is 0 and the view is the full original byte sequence. -/
theorem C7_reset_restores (s : List Nat) (ms : List Move) (bc : ByteCode)
    (h : (ByteCode.new s).run ms = some bc) :
    bc.reset = some (ByteCode.new s) ∧ (ByteCode.new s).pos = 0 ∧
    (ByteCode.new s).as_slice = s := by
  have hb : bc.buf = s := by
    have hr := run_buf_eq ms (ByteCode.new s) bc h
    simpa [new] using hr
  refine ⟨?_, rfl, rfl⟩
  unfold reset
  rw [sub_assign_eq_some_iff]
  exact ⟨Nat.le_refl _, by simp [new, hb]⟩

theorem C7_witness :
    ({ buf := [0, 1, 2, 3, 4, 5, 6, 7], pos := 3 } : ByteCode).reset =
      some (ByteCode.new [0, 1, 2, 3, 4, 5, 6, 7]) ∧
    (ByteCode.new [0, 1, 2, 3, 4, 5, 6, 7]).pos = 0 ∧
    (ByteCode.new [0, 1, 2, 3, 4, 5, 6, 7]).as_slice = [0, 1, 2, 3, 4, 5, 6, 7] :=
  C7_reset_restores [0, 1, 2, 3, 4, 5, 6, 7]
    [Move.advance 5, Move.retreat 2] _ (by decide)

/-- C8: `is_end` returns true exactly when the position equals the total
length `len`, equivalently false exactly when unread bytes remain; and for a
construction buffer `s` of length L, both a single advance by L and L
individual step-forward (`next`) calls reach a state where `is_end` is
true. -/
theorem C8_is_end_iff_exhausted (bc : ByteCode) (s : List Nat) :
    (bc.is_end = true ↔ bc.pos = bc.len) ∧
    (bc.is_end = false ↔ 0 < bc.remaining) ∧
    (∃ bc', (ByteCode.new s).add_assign s.length = some bc' ∧
      bc'.is_end = true) ∧
    (∃ bc', (ByteCode.new s).nextN s.length = some bc' ∧ bc'.is_end = true) := by
  refine ⟨?_, ?_, ?_, ?_⟩
  · simp [is_end]
  · rw [remaining_def]
    rw [show bc.is_end = (bc.pos == bc.inner.length + bc.pos) from rfl]
    rw [beq_eq_false_iff_ne]
    constructor
    · intro hne
      omega
    · intro hlt
      omega
  · refine ⟨{ buf := s, pos := s.length }, ?_, ?_⟩
    · rw [add_assign_eq_some_iff]
      constructor
      · simp [remaining, new, inner]
      · simp [new]
    · simp [is_end, len, inner, List.drop_length]
  · refine ⟨{ buf := s, pos := 0 + s.length }, ?_, ?_⟩
    · exact nextN_eq_some s.length (ByteCode.new s)
        (by simp [remaining, new, inner])
    · simp [is_end, len, inner, List.drop_length]

/-- C9: indexed access reads relative to the current unread view without
mutating the cursor: a single index returns the i-th unread byte and fails
with the out-of-bounds panic exactly when i is outside the view; ranges use
half-open semantics (the inclusive form being `a..(b+1)`) and fail exactly
when their bounds leave the view.  The spec's examples on a fresh cursor
over `[0,1,2,3,4,5,6,7]` are included. -/
theorem C9_indexed_access (bc : ByteCode) :
    (∀ i, bc.index i = bc.inner.get? i) ∧
    (∀ i, bc.index i = none ↔ bc.remaining ≤ i) ∧
    (∀ a b, a ≤ b → b ≤ bc.remaining →
      bc.index_range a b = some ((bc.inner.drop a).take (b - a))) ∧
    (∀ a b, bc.index_range a b = none ↔ ¬(a ≤ b ∧ b ≤ bc.remaining)) ∧
    (∀ a, bc.index_range_from a = none ↔ bc.remaining < a) ∧
    (∀ b, bc.index_range_to b = none ↔ bc.remaining < b) ∧
    (∀ a b, bc.index_range_incl a b = none ↔
      ¬(a ≤ b + 1 ∧ b + 1 ≤ bc.remaining)) ∧
    (ByteCode.new [0, 1, 2, 3, 4, 5, 6, 7]).index 4 = some 4 ∧
    (ByteCode.new [0, 1, 2, 3, 4, 5, 6, 7]).index_range_from 2 =
      some [2, 3, 4, 5, 6, 7] ∧
    (ByteCode.new [0, 1, 2, 3, 4, 5, 6, 7]).index_range_to 6 =
      some [0, 1, 2, 3, 4, 5] ∧
    (ByteCode.new [0, 1, 2, 3, 4, 5, 6, 7]).index_range 2 6 =
      some [2, 3, 4, 5] ∧
    (ByteCode.new [0, 1, 2, 3, 4, 5, 6, 7]).index_range_incl 2 6 =
      some [2, 3, 4, 5, 6] := by
  refine ⟨fun i => rfl, ?_, ?_, ?_, ?_, ?_, ?_,
    by decide, by decide, by decide, by decide, by decide⟩
  · intro i
    rw [remaining_def]
    simp [index, List.get?_eq_none]
  · intro a b ha hb
    rw [remaining_def] at hb
    unfold index_range
    rw [if_pos ⟨ha, hb⟩]
  · intro a b
    rw [remaining_def]
    unfold index_range
    split <;> simp_all
  · intro a
    rw [remaining_def]
    unfold index_range_from index_range
    split <;> simp_all
  · intro b
    rw [remaining_def]
    unfold index_range_to index_range
    split <;> simp_all
  · intro a b
    rw [remaining_def]
    unfold index_range_incl index_range
    split <;> simp_all

end ByteCode

end BytecodeRs
